import Mathlib

/-!
Verification of the name-canonicalization and composite-scoring engine of the
case_theory_check repository.

The Python sources are shallowly embedded as executable Lean definitions:

* `src/utils/theory_mapper.py`      → `normalizeText`, `extractEnglishAcronym`,
  `chineseCore`, `theorySignature`, `chooseCanonical`, `pairwiseMerge`,
  `bucketsOf`, `buildTheoryMapping`
* `src/utils/theory_normalizer.py`  → `BUILTIN_MAPPING`, `buildReverse`,
  `tnNormalize`, `getAllVariants`
* `src/utils/theory_query_helper.py`→ `mergeTheoryResults`
* `src/analysis/exact_matcher.py`   → `matcherFreqInfo`
* `render_deploy/src/analysis/scorer.py` → `computeComprehensiveScore`,
  `calcInnovationScore`

Strings are manipulated through structural functions on `List Char` so that
every definition reduces in the kernel.  Python floats are modelled by `ℚ`.
The external `fuzzywuzzy.fuzz.ratio` similarity (an edit-distance-derived
score, `round(100 * 2 * LCS(a,b) / (len a + len b))`) is modelled by
`fuzzSim`, with rounding half-up.
-/

/-- Python-style whitespace test used by `str.strip`, `\s` and the explicit
`　` branch of the mapper's whitespace regex. -/
def pySpace (c : Char) : Bool :=
  c.isWhitespace || c = '　'

/-- Python `str.strip()` on a character list: drop whitespace on both ends. -/
def stripList (cs : List Char) : List Char :=
  ((cs.dropWhile pySpace).reverse.dropWhile pySpace).reverse

/-- Python `str.strip()`. -/
def pyStrip (s : String) : String :=
  String.mk (stripList s.data)

/-- Python `str.lower()` (ASCII case folding; CJK characters are unaffected). -/
def pyLower (s : String) : String :=
  String.mk (s.data.map Char.toLower)

/-- Python `str.upper()`. -/
def pyUpper (s : String) : String :=
  String.mk (s.data.map Char.toUpper)

/-- Collapse every maximal run of whitespace into a single ASCII space,
part of `re.sub(r"[　\s]+", " ", s)`. -/
def collapseAux : Bool → List Char → List Char
  | _, [] => []
  | prevSpace, c :: cs =>
    if pySpace c then
      if prevSpace then collapseAux true cs
      else ' ' :: collapseAux true cs
    else c :: collapseAux false cs

/-- Whitespace-run collapsing on strings. -/
def collapseWS (s : String) : String :=
  String.mk (collapseAux false s.data)

/-- Single-character textual replacement, as used for `（ ） ， 。 ； ;`. -/
def replaceChar (a b : Char) (s : String) : String :=
  String.mk (s.data.map fun c => if c = a then b else c)

/-- Embeds `theory_mapper._normalize_text`: strip, collapse whitespace runs, then
replace full-width parentheses, comma and full stop. -/
def normalizeText (s : String) : String :=
  replaceChar '。' '.' (replaceChar '，' ',' (replaceChar '）' ')'
    (replaceChar '（' '(' (collapseWS (pyStrip s)))))

/-- ASCII latin letter test (the regex class `[A-Za-z]`). -/
def isLatinChar (c : Char) : Bool :=
  ('A' ≤ c && c ≤ 'Z') || ('a' ≤ c && c ≤ 'z')

/-- Maximal runs of characters satisfying `p` (`re.findall(r"[A-Za-z]+", s)`
when `p` is `isLatinChar`); `cur` is the reversed run in progress. -/
def runsAux (p : Char → Bool) (cur : List Char) : List Char → List (List Char)
  | [] => if cur.isEmpty then [] else [cur.reverse]
  | c :: cs =>
    if p c then runsAux p (c :: cur) cs
    else if cur.isEmpty then runsAux p [] cs
    else cur.reverse :: runsAux p [] cs

/-- All latin-letter tokens of a string, in order. -/
def latinTokens (s : String) : List String :=
  (runsAux isLatinChar [] s.data).map String.mk

/-- Python `str.isupper()` for a pure latin token: every character is `A`-`Z`. -/
def isUpperTok (t : String) : Bool :=
  t.data.all fun c => 'A' ≤ c && c ≤ 'Z'

/-- Embeds `theory_mapper._extract_english_acronym`: first all-uppercase latin token
of length 2–6 if any, else the first latin token of length 2–6 uppercased,
else the empty string. -/
def extractEnglishAcronym (s : String) : String :=
  let tokens := latinTokens s
  match tokens.find? (fun t => isUpperTok t && 2 ≤ t.length && t.length ≤ 6) with
  | some t => t
  | none =>
    match (tokens.filter fun t => 2 ≤ t.length && t.length ≤ 6).head? with
    | some t => pyUpper t
    | none => ""

/-- The generic domain-suffix words stripped by the mapper
(`theory_mapper._CN_SUFFIXES`). -/
def CN_SUFFIXES : List String :=
  ["分析法", "分析模型", "分析", "模型", "理论", "矩阵", "策略", "战略",
   "方法", "体系", "框架", "模式"]

/-- Python `str.endswith(suf)`. -/
def pyEndsWith (s suf : String) : Bool :=
  decide (s.data.drop (s.data.length - suf.data.length) = suf.data)
    && decide (suf.data.length ≤ s.data.length)

/-- Drop the last `n` characters. -/
def dropRightChars (s : String) (n : Nat) : String :=
  String.mk (s.data.take (s.data.length - n))

/-- Embeds `theory_mapper._strip_cn_suffixes`: each suffix of `CN_SUFFIXES`, in
order, is removed once from the end if present. -/
def stripCnSuffixes (s : String) : String :=
  CN_SUFFIXES.foldl
    (fun base suf => if pyEndsWith base suf then dropRightChars base suf.length else base)
    s

/-- CJK ideograph test (the regex class `[一-鿿]`). -/
def isCJK (c : Char) : Bool :=
  0x4e00 ≤ c.toNat && c.toNat ≤ 0x9fff

/-- Embeds `theory_mapper._chinese_core`: normalise, keep only ideographic and
alphanumeric characters, then strip the generic suffix words. -/
def chineseCore (s : String) : String :=
  stripCnSuffixes (String.mk ((normalizeText s).data.filter
    fun c => isCJK c || c.isAlphanum))

/-- Embeds `theory_mapper._signature`: the `(latin acronym, ideographic core)`
pair used as the bucketing key. -/
def theorySignature (name : String) : String × String :=
  (extractEnglishAcronym (normalizeText name), chineseCore name)

/-- One row-update of the longest-common-subsequence dynamic programme.
`diag` is the previous row's entry one column to the left, `left` the
current row's previous entry. -/
def lcsStepAux (x : Char) : List Char → List Nat → Nat → Nat → List Nat
  | [], _, _, _ => []
  | _ :: _, [], _, _ => []
  | y :: ys, rj :: rest, diag, left =>
    let sj := if x = y then diag + 1 else max left rj
    sj :: lcsStepAux x ys rest rj sj

/-- Process one character of the first word against the whole previous row. -/
def lcsStep (x : Char) (ys : List Char) (prev : List Nat) : List Nat :=
  match prev with
  | [] => []
  | r0 :: rest => 0 :: lcsStepAux x ys rest r0 0

/-- Length of the longest common subsequence of two character lists. -/
def lcs (xs ys : List Char) : Nat :=
  (xs.foldl (fun row x => lcsStep x ys row) (List.replicate (ys.length + 1) 0)).getLastD 0

/-- Model of `fuzzywuzzy.fuzz.ratio`: `round(100 * 2M / T)` where `M` is the
longest-common-subsequence length and `T` the total length (for the
Levenshtein backend, `(T - dist)/T` with substitution cost 2 equals
`2·LCS/T`).  Rounding is half-up; two empty strings score 100. -/
def fuzzSim (a b : String) : Nat :=
  let t := a.data.length + b.data.length
  if t = 0 then 100 else (400 * lcs a.data b.data + t) / (2 * t)

/-- Whether any cross pair of two groups reaches the similarity threshold
(`fuzz.ratio(a.lower(), b.lower()) >= ratio_threshold`). -/
def qualifies (thr : Nat) (g mg : List String) : Bool :=
  g.any fun a => mg.any fun b => thr ≤ fuzzSim (pyLower a) (pyLower b)

/-- Try to append `g` to the first already-merged group with a qualifying
pair, returning `none` when no group qualifies. -/
def tryPlace (thr : Nat) (g : List String) : List (List String) → Option (List (List String))
  | [] => none
  | mg :: rest =>
    if qualifies thr g mg then some ((mg ++ g) :: rest)
    else (tryPlace thr g rest).map (mg :: ·)

/-- Embeds `theory_mapper._pairwise_merge`: a single pass over the buckets; each
bucket is merged into the first existing group with a qualifying pair, or
appended as a new group. -/
def pairwiseMerge (thr : Nat) (groups : List (List String)) : List (List String) :=
  groups.foldl (fun merged g => (tryPlace thr g merged).getD (merged ++ [g])) []

/-- Number of ideographic characters of a string
(`len(re.findall(r"[一-鿿]", v))`). -/
def cnCount (v : String) : Nat :=
  (v.data.filter isCJK).length

/-- The canonical-selection sort key ordered lexicographically:
(ideographic count, length, multiplicity in the group, the string itself). -/
abbrev ScoreKey := Lex (Nat × Lex (Nat × Lex (Nat × String)))

/-- Embeds `theory_mapper._choose_canonical`'s `score`, as a value of the
lexicographic order `ScoreKey`. -/
def scoreKey (variants : List String) (v : String) : ScoreKey :=
  toLex (cnCount v, toLex (v.length, toLex (variants.count v, v)))

/-- First maximum of `b :: vs` under the key `k`; this is the head of the
stable descending sort used by `_choose_canonical`. -/
def chooseAux (k : String → ScoreKey) : String → List String → String
  | b, [] => b
  | b, v :: vs => if k b < k v then chooseAux k v vs else chooseAux k b vs

/-- Embeds `theory_mapper._choose_canonical`:
`sorted(variants, key=score, reverse=True)[0]`. -/
def chooseCanonical : List String → String
  | [] => ""
  | v :: vs => chooseAux (scoreKey (v :: vs)) v vs

/-- Python `list(dict.fromkeys(names))`: deduplicate keeping first occurrences. -/
def dedupFirstAux (seen : List String) : List String → List String
  | [] => []
  | x :: xs =>
    if x ∈ seen then dedupFirstAux seen xs
    else x :: dedupFirstAux (x :: seen) xs

/-- Order-preserving deduplication. -/
def dedupFirst (l : List String) : List String :=
  dedupFirstAux [] l

/-- Append a name to the bucket of its signature, preserving the first-seen
order of buckets (`defaultdict(list)` insertion semantics). -/
def addBucket : List ((String × String) × List String) → String × String → String →
    List ((String × String) × List String)
  | [], sig, n => [(sig, [n])]
  | (s, g) :: bs, sig, n =>
    if s = sig then (s, g ++ [n]) :: bs
    else (s, g) :: addBucket bs sig n

/-- The signature buckets of a name list, in first-seen order. -/
def bucketsOf (names : List String) : List (List String) :=
  (names.foldl (fun bs n => addBucket bs (theorySignature n) n) []).map Prod.snd

/-- Embeds `theory_mapper.build_theory_mapping` (the database/Excel enumeration is
plumbing; the combined raw-name list is the input): filter blank entries,
deduplicate, bucket by signature, fuzzy-merge at threshold 92, then emit
`canonical → [canonical, variants…]` per merged group. -/
def buildTheoryMapping (names : List String) : List (String × List String) :=
  let cleaned := dedupFirst (names.filter fun n => pyStrip n ≠ "")
  let groups := pairwiseMerge 92 (bucketsOf cleaned)
  groups.map fun g =>
    let g := dedupFirst g
    let c := chooseCanonical g
    (c, c :: g.filter fun v => v ≠ c)

/-- Embeds `TheoryNormalizer.BUILTIN_MAPPING`: the built-in canonical → variants
table used when no dynamic artifact is loaded. -/
def BUILTIN_MAPPING : List (String × List String) :=
  [("SWOT分析", ["SWOT分析", "SWOT Analysis", "swot分析", "SWOT", "swot"]),
   ("波特五力模型", ["波特五力", "波特五力模型", "波特五力分析", "五力模型", "Porter's Five Forces"]),
   ("4P营销理论", ["4P", "4P营销", "4P理论", "4Ps", "营销4P"]),
   ("蓝海战略", ["蓝海战略", "蓝海理论", "蓝海策略", "Blue Ocean Strategy"]),
   ("PEST分析", ["PEST", "PEST分析", "PEST模型", "PEST Analysis"]),
   ("价值链分析", ["价值链", "价值链分析", "波特价值链", "价值链理论"]),
   ("BCG矩阵", ["BCG", "BCG矩阵", "BCG分析", "Boston Matrix"]),
   ("平衡计分卡", ["BSC", "平衡计分卡", "Balanced Scorecard"]),
   ("商业模式画布", ["BMC", "商业模式画布", "Business Model Canvas", "商业画布"]),
   ("精益创业", ["精益创业", "Lean Startup", "精益创新"]),
   ("长尾理论", ["长尾", "长尾理论", "长尾效应", "Long Tail"])]

/-- The reverse-index key of a surface form: `str(v).lower().strip()`. -/
def rkey (s : String) : String :=
  pyStrip (pyLower s)

/-- Embeds `TheoryNormalizer._build_reverse_mapping`.  Dynamic entries are written
with plain assignment (later entries win), built-in entries with
`setdefault` (only filling absent keys).  Assignment is modelled by
prepending, so `List.lookup` sees the most recent binding first. -/
def buildReverse (dynamic builtin : List (String × List String)) : List (String × String) :=
  let addAll := fun (m : List (String × String)) (p : String × List String) =>
    (p.2 ++ [p.1]).foldl (fun m v => (rkey v, p.1) :: m) m
  let d := dynamic.foldl addAll []
  builtin.foldl
    (fun m p =>
      (p.2 ++ [p.1]).foldl
        (fun m v => if (List.lookup (rkey v) m).isSome then m else (rkey v, p.1) :: m) m)
    d

/-- The reverse index in the default configuration, where no dynamic mapping
artifact exists (`_load_dynamic_mapping_if_exists` leaves it empty). -/
def builtinReverse : List (String × String) :=
  buildReverse [] BUILTIN_MAPPING

/-- Embeds `TheoryNormalizer.normalize`: look the lowered, stripped name up in the
reverse index and fall back to the input itself. -/
def tnNormalize (rev : List (String × String)) (name : String) : String :=
  (List.lookup (rkey name) rev).getD name

/-- Modelled from the spec: the claimed "whitespace-collapsed" lookup of
§4.1 — the key additionally has internal whitespace runs collapsed before
the reverse-index lookup.  (The code's `normalize` only strips the ends.) -/
def tnNormalizeCollapsedSpec (rev : List (String × String)) (name : String) : String :=
  (List.lookup (collapseWS (rkey name)) rev).getD name

/-- Embeds `TheoryNormalizer.get_all_variants`: the dynamic entry if the canonical
is dynamically mapped, else the built-in entry, plus the canonical itself. -/
def getAllVariants (dynamic : List (String × List String)) (std : String) : List String :=
  match List.lookup std dynamic with
  | some vs => vs ++ [std]
  | none => (List.lookup std BUILTIN_MAPPING).getD [] ++ [std]

/-- A case summary row as returned by `Database.get_cases_by_theory`; only
the identity fields matter for deduplication.  `none` models Python `None`. -/
structure CaseRec where
  id : Option Nat
  code : Option String
  name : Option String
deriving DecidableEq, Repr

/-- A Python value used as a dedup key: `None`, an integer id or a string. -/
abbrev PyKey := Option (Nat ⊕ String)

/-- Python truthiness of such a value (`None`, `0` and `""` are falsy). -/
def pyTruthy : PyKey → Bool
  | none => false
  | some (Sum.inl n) => n != 0
  | some (Sum.inr s) => s != ""

/-- Python `a or b`: the left operand when truthy, else the right one. -/
def pyOr (a b : PyKey) : PyKey :=
  if pyTruthy a then a else b

/-- Python `case.get('id') or case.get('code') or case.get('name')`. -/
def caseKey (c : CaseRec) : PyKey :=
  pyOr (pyOr (c.id.map Sum.inl) (c.code.map Sum.inr)) (c.name.map Sum.inr)

/-- A failure of the external case store (an exception raised by
`db.get_cases_by_theory`, including timeouts). -/
inductive DbErr where
  | fail
deriving DecidableEq, Repr

/-- Membership test in the `seen_case_ids` set. -/
def keySeen (a : PyKey) (l : List PyKey) : Bool :=
  l.any fun k => decide (k = a)

/-- The inner loop of `merge_theory_results`: walk one variant's case list,
appending each case whose key has not been seen. -/
def addCases : List PyKey × List CaseRec → List CaseRec → List PyKey × List CaseRec
  | st, [] => st
  | st, c :: cs =>
    if keySeen (caseKey c) st.1 then addCases st cs
    else addCases (caseKey c :: st.1, st.2 ++ [c]) cs

/-- The outer loop of `merge_theory_results`: query every variant; a store
exception is caught by the bare `except:` and the variant is skipped. -/
def collectCases (db : String → Except DbErr (List CaseRec)) :
    List PyKey × List CaseRec → List String → List PyKey × List CaseRec
  | st, [] => st
  | st, v :: vs =>
    match db v with
    | Except.error _ => collectCases db st vs
    | Except.ok cs => collectCases db (addCases st cs) vs

/-- The dictionary returned by `TheoryQueryHelper.merge_theory_results`. -/
structure MergeResult where
  theoryName : String
  variants : List String
  usageCount : Nat
  frequencyRank : String
  cases : List CaseRec
deriving Repr

/-- Embeds `TheoryQueryHelper.merge_theory_results`: normalise the queried name,
aggregate the deduplicated case lists of all its variants and classify the
count with the configured thresholds. -/
def mergeTheoryResults (novelMax highMin : Nat)
    (dynamic : List (String × List String))
    (db : String → Except DbErr (List CaseRec)) (theoryName : String) : MergeResult :=
  let std := tnNormalize (buildReverse dynamic BUILTIN_MAPPING) theoryName
  let variants := getAllVariants dynamic std
  let st := collectCases db ([], []) variants
  let count := st.2.length
  let rank :=
    if highMin ≤ count then "经典理论"
    else if novelMax < count then "常见理论"
    else "新颖理论"
  { theoryName := std, variants := variants, usageCount := count,
    frequencyRank := rank, cases := st.2 }

/-- Embeds `ExactMatcher._get_frequency_info`: the `(rank, emoji)` pair for a
usage count under the configured thresholds. -/
def matcherFreqInfo (novelMax highMin : Nat) (count : Nat) : String × String :=
  if highMin ≤ count then ("经典理论", "🔥")
  else if novelMax < count then ("常见理论", "✅")
  else ("新颖理论", "🆕")

/-- A frequency tier. -/
inductive Tier where
  | novel
  | common
  | highFreq
deriving DecidableEq, Repr

/-- The tier branch of `ComprehensiveScorer.calculate_innovation_score`:
`c <= NOVEL_MAX_USAGE`, `c < HIGH_FREQ_MIN_USAGE`, else high-frequency. -/
def scorerClassify (novelMax highMin : Nat) (c : Nat) : Tier :=
  if c ≤ novelMax then Tier.novel
  else if c < highMin then Tier.common
  else Tier.highFreq

/-- The Chinese rank label of a tier, as used by the matcher and helper. -/
def tierLabel : Tier → String
  | Tier.novel => "新颖理论"
  | Tier.common => "常见理论"
  | Tier.highFreq => "经典理论"

/-- Modelled from the spec: "counts {0,1,2} → novel, {3,4} → common,
{5,…} → high-frequency" with the default thresholds. -/
def freqTierSpec (n : Nat) : Tier :=
  if n = 0 ∨ n = 1 ∨ n = 2 then Tier.novel
  else if n = 3 ∨ n = 4 then Tier.common
  else Tier.highFreq

/-- The scorer's per-signal weights (`settings.*_WEIGHT`). -/
structure Weights where
  theoryOverlap : ℚ
  semanticSimilarity : ℚ
  keywordSimilarity : ℚ
  domainSimilarity : ℚ

/-- The default weight configuration 0.40/0.30/0.20/0.10. -/
def defaultWeights : Weights :=
  { theoryOverlap := 2/5, semanticSimilarity := 3/10,
    keywordSimilarity := 1/5, domainSimilarity := 1/10 }

/-- The fields of the new case consumed by the scorer.  `theories` is the
list the caller supplies (`new_case.get('theories', [])`). -/
structure NewCase where
  theories : List String
  keywords : String
  industry : Option String
  subject : Option String

/-- The candidate case's metadata as stored: `theories` is a comma-joined
string (`matched_case.get('theories', '')`). -/
structure MatchedCase where
  theories : String
  keywords : String
  industry : Option String
  subject : Option String

/-- The result dictionary of `compute_comprehensive_score`. -/
structure ScoreResult where
  finalScore : ℚ
  theoryOverlap : ℚ
  semanticSimilarity : ℚ
  keywordSimilarity : ℚ
  domainSimilarity : ℚ
  matchedTheories : Finset String

/-- Split a character list at commas (`str.split(',')`); `cur` holds the
current field reversed. -/
def splitCommaAux (cur : List Char) : List Char → List String
  | [] => [String.mk cur.reverse]
  | c :: cs =>
    if c = ',' then String.mk cur.reverse :: splitCommaAux [] cs
    else splitCommaAux (c :: cur) cs

/-- Python `str.split(',')`. -/
def splitComma (s : String) : List String :=
  splitCommaAux [] s.data

/-- The scorer's `split_kw`: unify `；ģ;ģ，` to `,`, split, strip each
field and drop blank ones. -/
def splitKw (s : String) : List String :=
  (splitComma (replaceChar '，' ',' (replaceChar ';' ',' (replaceChar '；' ',' s)))).filterMap
    fun k => if k = "" then none else if pyStrip k = "" then none else some (pyStrip k)

/-- Embeds `ComprehensiveScorer._calculate_keyword_similarity`: Jaccard index of
the two keyword sets, 0 when either side is empty. -/
def keywordSimilarity (k1 k2 : String) : ℚ :=
  if k1 = "" ∨ k2 = "" then 0
  else
    let s1 := (splitKw k1).toFinset
    let s2 := (splitKw k2).toFinset
    if s1 = ∅ ∨ s2 = ∅ then 0
    else
      let inter := (s1 ∩ s2).card
      let union := (s1 ∪ s2).card
      if 0 < union then (inter : ℚ) / union else 0

/-- Truthy-and-equal test on two optional fields (`case1.get(f) and
case2.get(f) and case1[f] == case2[f]`). -/
def bothEqNonempty (a b : Option String) : Bool :=
  match a, b with
  | some x, some y => x != "" && y != "" && x == y
  | _, _ => false

/-- Embeds `ComprehensiveScorer._calculate_domain_similarity`: 0.5 for a matching
non-empty industry plus 0.5 for a matching non-empty subject. -/
def domainSimilarity (industry1 industry2 subject1 subject2 : Option String) : ℚ :=
  (if bothEqNonempty industry1 industry2 then (1:ℚ)/2 else 0) +
  (if bothEqNonempty subject1 subject2 then (1:ℚ)/2 else 0)

/-- The candidate's theory set: comma-split when the stored field is a
non-empty string, empty otherwise. -/
def matchedTheoryList (mc : MatchedCase) : List String :=
  if mc.theories = "" then [] else splitComma mc.theories

/-- Embeds `ComprehensiveScorer.compute_comprehensive_score`.  The intersection is
taken over the literal theory strings of both sides; `exactMatches` is
accepted (as in the Python signature) but unused. -/
def computeComprehensiveScore (w : Weights) (nc : NewCase) (mc : MatchedCase)
    (_exactMatches : List (String × Nat)) (semanticScore : ℚ) : ScoreResult :=
  let newT := nc.theories.toFinset
  let mT := (matchedTheoryList mc).toFinset
  let overlap : ℚ := if newT.card ≠ 0 then ((newT ∩ mT).card : ℚ) / newT.card else 0
  let sem := semanticScore
  let kw := keywordSimilarity nc.keywords mc.keywords
  let dom := domainSimilarity nc.industry mc.industry nc.subject mc.subject
  { finalScore := overlap * w.theoryOverlap + sem * w.semanticSimilarity +
      kw * w.keywordSimilarity + dom * w.domainSimilarity,
    theoryOverlap := overlap, semanticSimilarity := sem,
    keywordSimilarity := kw, domainSimilarity := dom,
    matchedTheories := newT ∩ mT }

/-- Modelled from the spec: `theory_overlap` = |theories(new) ∩
theories(candidate)| / |theories(new)|, and 0 when the new case has none. -/
def theoryOverlapSpec (newT candT : Finset String) : ℚ :=
  if newT = ∅ then 0 else ((newT ∩ candT).card : ℚ) / newT.card

/-- Python `round(x, 1)` on the innovation score (modelled half-up; the
claims do not exercise exact .05 ties). -/
def roundTo1 (q : ℚ) : ℚ :=
  (round (q * 10) : ℤ) / 10

/-- The result dictionary of `calculate_innovation_score`. -/
structure InnovationResult where
  innovationScore : ℚ
  novelTheories : List String
  commonTheories : List String
  highFrequencyTheories : List String
  novelShare : ℚ
  commonShare : ℚ
  highFreqShare : ℚ

/-- The usage count the scorer sees for a theory:
`(exact_matches.get(t, {}) or {}).get('match_count', 0)`. -/
def matchCountOf (ms : List (String × Nat)) (t : String) : Nat :=
  (List.lookup t ms).getD 0

/-- Embeds `ComprehensiveScorer.calculate_innovation_score`: partition the new
case's theories by tier and weight the tier shares 1.0/0.5/0.2 on a 0–100
scale; a case with no theories yields all zeros. -/
def calcInnovationScore (novelMax highMin : Nat) (theories : List String)
    (ms : List (String × Nat)) : InnovationResult :=
  if theories.isEmpty then
    { innovationScore := 0, novelTheories := [], commonTheories := [],
      highFrequencyTheories := [], novelShare := 0, commonShare := 0,
      highFreqShare := 0 }
  else
    let novel := theories.filter fun t =>
      scorerClassify novelMax highMin (matchCountOf ms t) = Tier.novel
    let common := theories.filter fun t =>
      scorerClassify novelMax highMin (matchCountOf ms t) = Tier.common
    let highFreq := theories.filter fun t =>
      scorerClassify novelMax highMin (matchCountOf ms t) = Tier.highFreq
    let total : ℚ := theories.length
    let score := (novel.length / total) * 100 * 1 +
      (common.length / total) * 100 * (1/2) +
      (highFreq.length / total) * 100 * (1/5)
    { innovationScore := roundTo1 score,
      novelTheories := novel, commonTheories := common,
      highFrequencyTheories := highFreq,
      novelShare := novel.length / total,
      commonShare := common.length / total,
      highFreqShare := highFreq.length / total }

/-- The case list a variant query contributes: the store's rows on success,
nothing when the query raised. -/
def okCases (r : Except DbErr (List CaseRec)) : List CaseRec :=
  match r with
  | Except.ok l => l
  | Except.error _ => []

/-- A successful lookup's binding occurs in the association list. -/
theorem lookup_mem {α β : Type} [BEq α] [LawfulBEq α] {l : List (α × β)} {k : α} {v : β}
    (h : List.lookup k l = some v) : (k, v) ∈ l := by
  induction l with
  | nil => simp [List.lookup] at h
  | cons p t ih =>
    obtain ⟨a, b⟩ := p
    rw [List.lookup] at h
    by_cases hk : k == a
    · simp [hk] at h
      subst h
      simp [List.mem_cons, eq_of_beq hk]
    · simp [hk] at h
      exact List.mem_cons_of_mem _ (ih h)

/-- Lemma: `keySeen` decides membership of the seen-key set. -/
theorem keySeen_iff {a : PyKey} {l : List PyKey} : keySeen a l = true ↔ a ∈ l := by
  simp [keySeen]

set_option maxRecDepth 100000 in
/-- Every canonical that the built-in reverse index can return is itself a
fixed point of the lookup key map: its own key binds to it. -/
theorem builtinReverse_selfNormalizing :
    ∀ p ∈ builtinReverse, List.lookup (rkey p.2) builtinReverse = some p.2 := by
  intro p hp
  have h : builtinReverse.all
      (fun p => decide (List.lookup (rkey p.2) builtinReverse = some p.2)) = true := by
    decide
  exact of_decide_eq_true (List.all_eq_true.mp h p hp)

/-- C6: `normalize` is idempotent — with the reverse index the code builds in
its default configuration (no dynamic mapping artifact, so the built-in
table), `normalize (normalize x) = normalize x` for every string `x`. -/
theorem normalize_idempotent (x : String) :
    tnNormalize builtinReverse (tnNormalize builtinReverse x) = tnNormalize builtinReverse x := by
  unfold tnNormalize
  cases h : List.lookup (rkey x) builtinReverse with
  | none => simp [h]
  | some c =>
    have hc := builtinReverse_selfNormalizing (rkey x, c) (lookup_mem h)
    simp [h, hc]

set_option maxRecDepth 100000 in
/-- C9 (counterexample): the lookup key is only end-trimmed, not
whitespace-collapsed — on `"swot  analysis"` (double space) the code's
`normalize` passes the input through while a collapsed lookup would return
the canonical `"SWOT分析"`. -/
theorem normalize_not_collapsed_counterexample :
    tnNormalize builtinReverse "swot  analysis" = "swot  analysis" ∧
    tnNormalizeCollapsedSpec builtinReverse "swot  analysis" = "SWOT分析" ∧
    "swot  analysis" ≠ "SWOT分析" := by
  decide

/-- C9 (amended): `normalize` is a case-insensitive, end-trimmed lookup of
the name against the reverse index: a bound key returns its canonical and
an unbound name is returned unchanged (absence is not an error). -/
theorem normalize_lookup_behaviour (x : String) :
    (List.lookup (rkey x) builtinReverse = none → tnNormalize builtinReverse x = x) ∧
    (∀ c, List.lookup (rkey x) builtinReverse = some c → tnNormalize builtinReverse x = c) := by
  constructor
  · intro h
    simp [tnNormalize, h]
  · intro c h
    simp [tnNormalize, h]

set_option maxRecDepth 100000 in
/-- Witness for C9's amended theorem: an unknown name passes through, and
the key of `"SWOT"` resolves to `"SWOT分析"`. -/
theorem normalize_lookup_behaviour_witness :
    tnNormalize builtinReverse "数字化转型X" = "数字化转型X" ∧
    tnNormalize builtinReverse "SWOT" = "SWOT分析" :=
  ⟨(normalize_lookup_behaviour "数字化转型X").1 (by decide),
   (normalize_lookup_behaviour "SWOT").2 "SWOT分析" (by decide)⟩

/-- The outer loop of `merge_theory_results` keeps its state unchanged when
every store query raises. -/
theorem collectCases_error (st : List PyKey × List CaseRec) (vs : List String) :
    collectCases (fun _ => Except.error DbErr.fail) st vs = st := by
  induction vs generalizing st with
  | nil => rfl
  | cons v vs ih => simpa [collectCases] using ih st

/-- C2: a store failure while aggregating a theory's variants does not
propagate — the bare `except:` swallows it and `merge_theory_results`
returns a plain result with `usage_count = 0` and no cases, exactly the
silent "zero matches" the spec forbids. -/
theorem merge_swallows_store_failure (novelMax highMin : Nat)
    (dynamic : List (String × List String)) (tname : String) :
    (mergeTheoryResults novelMax highMin dynamic
      (fun _ => Except.error DbErr.fail) tname).usageCount = 0 ∧
    (mergeTheoryResults novelMax highMin dynamic
      (fun _ => Except.error DbErr.fail) tname).cases = [] := by
  unfold mergeTheoryResults
  simp [collectCases_error]

/-- Invariant of the inner dedup loop: seen keys stay duplicate-free, they
are exactly the keys of the accumulated cases, and afterwards they are the
old keys together with the processed chunk's keys. -/
theorem addCases_invariant (cs : List CaseRec) :
    ∀ seen acc, seen.Nodup → seen = (acc.map caseKey).reverse →
      (addCases (seen, acc) cs).1.Nodup ∧
      (addCases (seen, acc) cs).1 = ((addCases (seen, acc) cs).2.map caseKey).reverse ∧
      (addCases (seen, acc) cs).1.toFinset = seen.toFinset ∪ (cs.map caseKey).toFinset := by
  induction cs with
  | nil =>
    intro seen acc h1 h2
    exact ⟨h1, h2, by simp [addCases]⟩
  | cons c cs ih =>
    intro seen acc h1 h2
    by_cases hc : keySeen (caseKey c) seen
    · have hmem : caseKey c ∈ seen := keySeen_iff.mp hc
      have hi := ih seen acc h1 h2
      simp only [addCases, hc, if_true]
      refine ⟨hi.1, hi.2.1, ?_⟩
      rw [hi.2.2, List.map_cons, List.toFinset_cons, Finset.union_insert,
        Finset.insert_eq_self.mpr (Finset.mem_union_left _ (List.mem_toFinset.mpr hmem))]
    · have hmem : caseKey c ∉ seen := fun hm => hc (keySeen_iff.mpr hm)
      have hn : (caseKey c :: seen).Nodup := List.nodup_cons.mpr ⟨hmem, h1⟩
      have he : caseKey c :: seen = ((acc ++ [c]).map caseKey).reverse := by
        simp [h2]
      have hi := ih (caseKey c :: seen) (acc ++ [c]) hn he
      simp only [addCases, hc, Bool.false_eq_true, if_false]
      refine ⟨hi.1, hi.2.1, ?_⟩
      rw [hi.2.2]
      simp only [List.map_cons, List.toFinset_cons, Finset.insert_union, Finset.union_insert]

/-- Invariant of the outer variant loop: after all variants are processed,
the seen keys are the old keys together with every key of every successful
variant query. -/
theorem collectCases_invariant (db : String → Except DbErr (List CaseRec)) (vs : List String) :
    ∀ seen acc, seen.Nodup → seen = (acc.map caseKey).reverse →
      (collectCases db (seen, acc) vs).1.Nodup ∧
      (collectCases db (seen, acc) vs).1 =
        ((collectCases db (seen, acc) vs).2.map caseKey).reverse ∧
      (collectCases db (seen, acc) vs).1.toFinset =
        seen.toFinset ∪ ((vs.map fun v => okCases (db v)).flatten.map caseKey).toFinset := by
  induction vs with
  | nil =>
    intro seen acc h1 h2
    exact ⟨h1, h2, by simp [collectCases]⟩
  | cons v vs ih =>
    intro seen acc h1 h2
    cases hdb : db v with
    | error e =>
      have hi := ih seen acc h1 h2
      simp only [collectCases, hdb]
      refine ⟨hi.1, hi.2.1, ?_⟩
      rw [hi.2.2]
      simp [okCases, hdb]
    | ok cs =>
      have ha := addCases_invariant cs seen acc h1 h2
      have hi := ih (addCases (seen, acc) cs).1 (addCases (seen, acc) cs).2 ha.1 ha.2.1
      simp only [collectCases, hdb]
      refine ⟨?_, ?_, ?_⟩
      · simpa using hi.1
      · simpa using hi.2.1
      · have := hi.2.2
        rw [ha.2.2] at this
        simpa [okCases, hdb, Finset.union_assoc] using this

/-- C7: a case recorded under several variant spellings of one canonical
theory is counted once — `merge_theory_results` deduplicates the merged
case lists by case identity (`id`, falling back to `code` then `name`), its
result has pairwise-distinct case keys, and `usage_count` is the number of
distinct case keys over all successful variant queries. -/
theorem merge_usage_count_dedup (novelMax highMin : Nat)
    (dynamic : List (String × List String))
    (db : String → Except DbErr (List CaseRec)) (tname : String) :
    ((mergeTheoryResults novelMax highMin dynamic db tname).cases.map caseKey).Nodup ∧
    (mergeTheoryResults novelMax highMin dynamic db tname).usageCount =
      ((((mergeTheoryResults novelMax highMin dynamic db tname).variants.map
        fun v => okCases (db v)).flatten).map caseKey).toFinset.card := by
  simp only [mergeTheoryResults]
  have h := collectCases_invariant db
    (getAllVariants dynamic (tnNormalize (buildReverse dynamic BUILTIN_MAPPING) tname))
    [] [] (by simp) (by simp)
  obtain ⟨hnd, heq, hfin⟩ := h
  set st := collectCases db ([], [])
    (getAllVariants dynamic (tnNormalize (buildReverse dynamic BUILTIN_MAPPING) tname)) with hst
  constructor
  · exact List.nodup_reverse.mp (heq ▸ hnd)
  · have hlen : st.1.length = st.2.length := by
      rw [heq]
      simp
    rw [← hlen, ← List.toFinset_card_of_nodup hnd, hfin]
    simp

/-- C8: with the default thresholds `novel_max = 2` and `high_freq_min = 5`,
both the match engine's rank label and the innovation-score classification
send counts 0–2 to the novel tier, 3–4 to the common tier and every count
from 5 on to the high-frequency tier. -/
theorem tier_boundaries (n : Nat) :
    (matcherFreqInfo 2 5 n).1 = tierLabel (freqTierSpec n) ∧
    scorerClassify 2 5 n = freqTierSpec n := by
  rcases Nat.lt_or_ge n 5 with h5 | h5
  · interval_cases n <;> exact ⟨by decide, by decide⟩
  · have h1 : ¬(n = 0 ∨ n = 1 ∨ n = 2) := by omega
    have h2 : ¬(n = 3 ∨ n = 4) := by omega
    have h3 : ¬(n ≤ 2) := by omega
    have h4 : ¬(n < 5) := by omega
    have h6 : 2 < n := by omega
    constructor
    · simp [matcherFreqInfo, freqTierSpec, tierLabel, h5, h1, h2]
    · simp [scorerClassify, freqTierSpec, h1, h2, h3, h4]

/-- C10: a theory of the new case with no entry in the supplied match-results
map is read as usage count 0 by `calculate_innovation_score` and is always
classified into the novel tier. -/
theorem unmatched_theory_is_novel (novelMax highMin : Nat) (theories : List String)
    (ms : List (String × Nat)) (t : String) (ht : t ∈ theories)
    (hmiss : List.lookup t ms = none) :
    t ∈ (calcInnovationScore novelMax highMin theories ms).novelTheories := by
  have hne : theories.isEmpty = false := by
    cases theories with
    | nil => cases ht
    | cons a l => rfl
  unfold calcInnovationScore
  rw [hne]
  simp only [Bool.false_eq_true, if_false]
  apply List.mem_filter.mpr
  refine ⟨ht, ?_⟩
  simp [matchCountOf, hmiss, scorerClassify, Nat.zero_le]

/-- Witness for C10: a theory absent from the match map lands in the novel
tier of the innovation partition. -/
theorem unmatched_theory_is_novel_witness :
    "量子管理学" ∈ (calcInnovationScore 2 5 ["量子管理学", "SWOT分析"]
      [("SWOT分析", 9)]).novelTheories :=
  unmatched_theory_is_novel 2 5 ["量子管理学", "SWOT分析"] [("SWOT分析", 9)]
    "量子管理学" (by decide) (by decide)

/-- C1 (counterexample): at the spec's own example — new theories
{"SWOT分析","波特五力模型"}, candidate theories "SWOT,4P理论" — the scorer
intersects the literal strings and never consults the normalizer, so
`theory_overlap` is 0, not the claimed 0.5. -/
theorem overlap_example_is_zero :
    (computeComprehensiveScore defaultWeights
      ⟨["SWOT分析", "波特五力模型"], "", none, none⟩
      ⟨"SWOT,4P理论", "", none, none⟩ [] 0).theoryOverlap = 0 ∧
    (0 : ℚ) ≠ 1/2 := by
  constructor
  · simp only [computeComprehensiveScore]
    rw [if_pos (by decide)]
    rw [show ((["SWOT分析", "波特五力模型"] : List String).toFinset ∩
      (matchedTheoryList ⟨"SWOT,4P理论", "", none, none⟩).toFinset).card = 0 from by decide]
    norm_num
  · norm_num

/-- C1 (amended): `theory_overlap` is the intersection-over-new-case ratio of
the literal theory-string sets as supplied (the candidate side comma-split),
with no normalization applied inside the scorer, and 0 when the new case has
no theories. -/
theorem overlap_uses_literal_sets (w : Weights) (nc : NewCase) (mc : MatchedCase)
    (ex : List (String × Nat)) (sem : ℚ) :
    (computeComprehensiveScore w nc mc ex sem).theoryOverlap =
      theoryOverlapSpec nc.theories.toFinset (matchedTheoryList mc).toFinset := by
  unfold computeComprehensiveScore theoryOverlapSpec
  by_cases h : nc.theories.toFinset = ∅
  · simp [h]
  · have hc : nc.theories.toFinset.card ≠ 0 := by
      simpa [Finset.card_eq_zero] using h
    simp [h, hc]

/-- C3 (counterexample): with input names `abcdefghijkz`, `zbcdefghijkl`,
`abcdefghijkl` (three singleton buckets), the single-pass merge leaves
`zbcdefghijkl` in its own group although it reaches similarity 92 with the
member `abcdefghijkl` of the first group — the merge is not repeated until
no cross pair qualifies. -/
theorem merge_leaves_qualifying_pair :
    pairwiseMerge 92 (bucketsOf ["abcdefghijkz", "zbcdefghijkl", "abcdefghijkl"]) =
      [["abcdefghijkz", "abcdefghijkl"], ["zbcdefghijkl"]] ∧
    92 ≤ fuzzSim (pyLower "abcdefghijkl") (pyLower "zbcdefghijkl") := by
  decide

/-- A successful placement only extends one existing group by `g`, so the
flattened contents are preserved up to permutation. -/
theorem tryPlace_flatten (thr : Nat) (g : List String) :
    ∀ ms out, tryPlace thr g ms = some out → out.flatten.Perm (ms.flatten ++ g) := by
  intro ms
  induction ms with
  | nil => intro out h; simp [tryPlace] at h
  | cons mg rest ih =>
    intro out h
    rw [tryPlace] at h
    by_cases hq : qualifies thr g mg
    · rw [if_pos hq] at h
      cases h
      simp only [List.flatten_cons, List.append_assoc]
      exact List.Perm.append_left mg List.perm_append_comm
    · rw [if_neg hq] at h
      rcases Option.map_eq_some'.mp h with ⟨r, hr, rfl⟩
      simp only [List.flatten_cons, List.append_assoc]
      exact List.Perm.append_left mg (ih r hr)

/-- The single-pass merge preserves the flattened contents accumulated so
far together with the remaining buckets. -/
theorem pairwiseMerge_fold_flatten (thr : Nat) (gs : List (List String)) :
    ∀ acc, ((gs.foldl (fun merged g => (tryPlace thr g merged).getD (merged ++ [g])) acc).flatten).Perm
      (acc.flatten ++ gs.flatten) := by
  induction gs with
  | nil => intro acc; simp
  | cons g gs ih =>
    intro acc
    rw [List.foldl_cons]
    refine (ih _).trans ?_
    have hstep : ((tryPlace thr g acc).getD (acc ++ [g])).flatten.Perm (acc.flatten ++ g) := by
      cases h : tryPlace thr g acc with
      | none => simp [List.flatten_append]
      | some out => simpa using tryPlace_flatten thr g acc out h
    refine (List.Perm.append_right gs.flatten hstep).trans ?_
    rw [List.append_assoc, List.flatten_cons]

/-- C3 (amended): the fuzzy merge is a single pass (so qualifying cross
pairs can survive, see the counterexample), but it does produce a partition:
the merged groups carry exactly the input buckets' names, and duplicate-free
input stays duplicate-free — groups are pairwise disjoint. -/
theorem pairwiseMerge_partition (thr : Nat) (gs : List (List String)) :
    (pairwiseMerge thr gs).flatten.Perm gs.flatten ∧
    (gs.flatten.Nodup → (pairwiseMerge thr gs).flatten.Nodup) := by
  have h : (pairwiseMerge thr gs).flatten.Perm gs.flatten := by
    simpa using pairwiseMerge_fold_flatten thr gs []
  exact ⟨h, fun hn => h.nodup_iff.mpr hn⟩

/-- Witness for C3's amended theorem at a concrete bucket list. -/
theorem pairwiseMerge_partition_witness :
    (pairwiseMerge 92 (bucketsOf ["abcdefghijkz", "zbcdefghijkl", "abcdefghijkl"])).flatten.Nodup :=
  (pairwiseMerge_partition 92 (bucketsOf ["abcdefghijkz", "zbcdefghijkl", "abcdefghijkl"])).2
    (by decide)

/-- C4 (counterexample): permuting the input names changes the mapping — in
one order the three names split into two groups, in a permuted order they
collapse into a single group, because the single-pass fuzzy merge depends on
bucket visitation order. -/
theorem buildTheoryMapping_order_sensitive :
    (["zbcdefghijkl", "abcdefghijkl", "abcdefghijkz"] : List String).Perm
      ["abcdefghijkz", "zbcdefghijkl", "abcdefghijkl"] ∧
    (buildTheoryMapping ["abcdefghijkz", "zbcdefghijkl", "abcdefghijkl"]).length = 2 ∧
    (buildTheoryMapping ["zbcdefghijkl", "abcdefghijkl", "abcdefghijkz"]).length = 1 := by
  decide

/-- Lemma: `chooseAux` returns its seed or one of the candidates. -/
theorem chooseAux_eq_or_mem (k : String → ScoreKey) :
    ∀ vs b, chooseAux k b vs = b ∨ chooseAux k b vs ∈ vs := by
  intro vs
  induction vs with
  | nil => intro b; left; rfl
  | cons v vs ih =>
    intro b
    simp only [chooseAux]
    by_cases h : k b < k v
    · rw [if_pos h]
      rcases ih v with h1 | h1
      · right; rw [h1]; exact List.mem_cons_self v vs
      · right; exact List.mem_cons_of_mem v h1
    · rw [if_neg h]
      rcases ih b with h1 | h1
      · left; exact h1
      · right; exact List.mem_cons_of_mem v h1

/-- Lemma: `chooseAux` dominates its seed and every candidate under the key. -/
theorem chooseAux_le (k : String → ScoreKey) :
    ∀ vs b, k b ≤ k (chooseAux k b vs) ∧ ∀ v ∈ vs, k v ≤ k (chooseAux k b vs) := by
  intro vs
  induction vs with
  | nil => intro b; exact ⟨le_refl _, by simp⟩
  | cons v vs ih =>
    intro b
    simp only [chooseAux]
    by_cases h : k b < k v
    · rw [if_pos h]
      refine ⟨(le_of_lt h).trans (ih v).1, ?_⟩
      intro u hu
      rcases List.mem_cons.mp hu with h2 | h2
      · rw [h2]; exact (ih v).1
      · exact (ih v).2 u h2
    · rw [if_neg h]
      refine ⟨(ih b).1, ?_⟩
      intro u hu
      rcases List.mem_cons.mp hu with h2 | h2
      · rw [h2]; exact (le_of_not_lt h).trans (ih b).1
      · exact (ih b).2 u h2

/-- The sort key determines the string (its last component is the string). -/
theorem scoreKey_inj {l : List String} {a b : String}
    (h : scoreKey l a = scoreKey l b) : a = b := by
  unfold scoreKey at h
  simp only [toLex_inj, Prod.mk.injEq] at h
  exact h.2.2.2

/-- Permuted groups assign every string the same sort key: only the
multiplicity component mentions the group, and permutations preserve it. -/
theorem scoreKey_congr {l1 l2 : List String} (h : l1.Perm l2) (v : String) :
    scoreKey l1 v = scoreKey l2 v := by
  unfold scoreKey
  rw [h.count_eq]

/-- The canonical of a nonempty group is in the group. -/
theorem chooseCanonical_mem {l : List String} (h : l ≠ []) : chooseCanonical l ∈ l := by
  cases l with
  | nil => exact absurd rfl h
  | cons a t =>
    show chooseAux (scoreKey (a :: t)) a t ∈ a :: t
    rcases chooseAux_eq_or_mem (scoreKey (a :: t)) t a with h1 | h1
    · rw [h1]; exact List.mem_cons_self a t
    · exact List.mem_cons_of_mem a h1

/-- The canonical dominates every member of its group under the sort key. -/
theorem chooseCanonical_ub {l : List String} {v : String} (hv : v ∈ l) :
    scoreKey l v ≤ scoreKey l (chooseCanonical l) := by
  cases l with
  | nil => cases hv
  | cons a t =>
    show scoreKey (a :: t) v ≤ scoreKey (a :: t) (chooseAux (scoreKey (a :: t)) a t)
    rcases List.mem_cons.mp hv with h2 | h2
    · rw [h2]; exact (chooseAux_le (scoreKey (a :: t)) t a).1
    · exact (chooseAux_le (scoreKey (a :: t)) t a).2 v h2

/-- C4 (amended): the overall mapping is order-sensitive (see the
counterexample), but canonical selection itself is deterministic on the
group as a set: `_choose_canonical` returns the same member — the maximum
under (ideographic count, length, multiplicity, lexicographic order) — for
every permutation of a group. -/
theorem chooseCanonical_perm_invariant (l1 l2 : List String) (h : l1.Perm l2) :
    chooseCanonical l1 = chooseCanonical l2 := by
  cases l1 with
  | nil =>
    have : l2 = [] := by
      have := h.length_eq
      simpa using List.length_eq_zero.mp this.symm
    rw [this]
  | cons a t =>
    have hne1 : (a :: t) ≠ ([] : List String) := by simp
    have hne2 : l2 ≠ [] := by
      intro hh
      subst hh
      simpa using h.length_eq
    have hm1 : chooseCanonical (a :: t) ∈ l2 := h.mem_iff.mp (chooseCanonical_mem hne1)
    have hm2 : chooseCanonical l2 ∈ (a :: t) := h.mem_iff.mpr (chooseCanonical_mem hne2)
    have h12 : scoreKey (a :: t) (chooseCanonical (a :: t)) ≤
        scoreKey (a :: t) (chooseCanonical l2) := by
      rw [scoreKey_congr h, scoreKey_congr h]
      exact chooseCanonical_ub hm1
    have h21 : scoreKey (a :: t) (chooseCanonical l2) ≤
        scoreKey (a :: t) (chooseCanonical (a :: t)) :=
      chooseCanonical_ub hm2
    exact scoreKey_inj (le_antisymm h12 h21)

/-- Witness for C4's amended theorem on a concrete permuted pair. -/
theorem chooseCanonical_perm_invariant_witness :
    chooseCanonical ["SWOT", "SWOT分析"] = chooseCanonical ["SWOT分析", "SWOT"] :=
  chooseCanonical_perm_invariant ["SWOT", "SWOT分析"] ["SWOT分析", "SWOT"] (by decide)

/-- C5: two names sharing only the acronym component of their signature are
NOT bucketed together — bucketing keys on the exact pair.  `SWOT分析` and
`SWOT优势分析` share the acronym `SWOT` but have distinct cores, land in two
distinct buckets and stay in two distinct groups of the final mapping. -/
theorem shared_acronym_does_not_bucket :
    (theorySignature "SWOT分析").1 = (theorySignature "SWOT优势分析").1 ∧
    theorySignature "SWOT分析" ≠ theorySignature "SWOT优势分析" ∧
    bucketsOf ["SWOT分析", "SWOT优势分析"] = [["SWOT分析"], ["SWOT优势分析"]] ∧
    (buildTheoryMapping ["SWOT分析", "SWOT优势分析"]).length = 2 := by
  decide
